import Mathlib

/-
  Verification development for the nedis repository: a schema-validating
  record layer over a remote key-value store.  The embedding models the
  NedisClient class (src/nedis.ts of the library): per-record hashes stored
  under "table:pk" and a per-table index list stored under "table".
  Records and store key spaces are association lists over String; errors are
  a tagged enumeration mirroring src/errors.ts.  Every operation returns its
  result together with the client and store state (exceptions in the source
  leave already-performed mutations in place, so errors carry state too).
-/

namespace Nedis

/-- A record / JS object: an association list from field names to values.
hgetall of an absent key yields the empty mapping. -/
abbrev Record := List (String × String)

/-- Lookup in an association list (first occurrence wins, as in JS objects). -/
def lookupA {V : Type} : List (String × V) → String → Option V
  | [], _ => none
  | kv :: rest, k => if kv.1 = k then some kv.2 else lookupA rest k

/-- Set a key in an association list: replace the first occurrence in place,
else append (JS property-assignment / redis hash-field-set semantics). -/
def setA {V : Type} : List (String × V) → String → V → List (String × V)
  | [], k, v => [(k, v)]
  | kv :: rest, k, v => if kv.1 = k then (k, v) :: rest else kv :: setA rest k v

/-- Remove a key from an association list (redis DEL). -/
def removeA {V : Type} : List (String × V) → String → List (String × V)
  | [], _ => []
  | kv :: rest, k => if kv.1 = k then removeA rest k else kv :: removeA rest k

/-- The keys of an association list. -/
def keysA {V : Type} (m : List (String × V)) : List String := m.map Prod.fst

/-- Object.assign base upd: assign every field of upd onto base, new values win. -/
def objAssign (base upd : Record) : Record :=
  upd.foldl (fun m kv => setA m kv.1 kv.2) base

/-- JS truthiness of a field-access result: undefined and the empty string
are falsy, every other string truthy. -/
def truthy : Option String → Bool
  | none => false
  | some s => !(s == "")

/-- data[f] as used in string context: an absent field renders as "" when fed
to Array.join. -/
def fieldD (r : Record) (f : String) : String := (lookupA r f).getD ""

/-- The state of the remote store: hash keys, list keys, and whether a
connection attempt would succeed. -/
structure RedisState where
  hashes : List (String × Record)
  lists : List (String × List String)
  connectOk : Bool
deriving DecidableEq

/-- hgetall: the stored hash, or the empty mapping when the key is absent. -/
def hgetallS (st : RedisState) (key : String) : Record :=
  (lookupA st.hashes key).getD []

/-- lrange key 0 -1: the full stored list, empty when absent. -/
def lrangeAll (st : RedisState) (key : String) : List String :=
  (lookupA st.lists key).getD []

/-- EXISTS: a redis key exists iff it holds a nonempty hash or nonempty list. -/
def rexists (st : RedisState) (key : String) : Bool :=
  !(hgetallS st key).isEmpty || !(lrangeAll st key).isEmpty

/-- hmset: set the given fields of the hash at key, leaving other fields. -/
def hmsetS (st : RedisState) (key : String) (data : Record) : RedisState :=
  { st with hashes := setA st.hashes key (objAssign (hgetallS st key) data) }

/-- rpush: append a value at the end of the list at key. -/
def rpushS (st : RedisState) (key v : String) : RedisState :=
  { st with lists := setA st.lists key (lrangeAll st key ++ [v]) }

/-- Remove the first occurrence of a value from a list of strings. -/
def removeFirst (x : String) : List String → List String
  | [] => []
  | y :: rest => if y = x then rest else y :: removeFirst x rest

/-- lrem key 1 v: remove the first occurrence of v from the list at key. -/
def lremS (st : RedisState) (key v : String) : RedisState :=
  { st with lists := setA st.lists key (removeFirst v (lrangeAll st key)) }

/-- DEL: remove the key from the store entirely. -/
def delS (st : RedisState) (key : String) : RedisState :=
  { st with hashes := removeA st.hashes key, lists := removeA st.lists key }

/-- The error taxonomy of src/errors.ts. -/
inductive NedisError where
  | connectionError (message : String)
  | databaseInsertError (key errorMessage : String)
  | duplicateSchemaError (tableName : String)
  | itemNotFoundError (key table : String)
  | itemAlreadyExistsError (key : String)
  | unregisteredSchemaError (tableName : String)
  | validationError (joiMessage : String)
deriving DecidableEq

/-- The message string each error class builds in its constructor. -/
def NedisError.message : NedisError → String
  | .connectionError m => "Connection Error: " ++ m
  | .databaseInsertError k m =>
      "Error inserting into key \"" ++ k ++ "\". Error: " ++ m
  | .duplicateSchemaError t => "\"" ++ t ++ "\" schema is already registered."
  | .itemNotFoundError k t =>
      "\"" ++ t ++ "\" item by primary key \"" ++ k ++ "\" does not exist."
  | .itemAlreadyExistsError k => "Item with key \"" ++ k ++ "\" already exists."
  | .unregisteredSchemaError t => "Schema \"" ++ t ++ "\" is not registered."
  | .validationError m => m

/-- A Joi validator, abstracted: none means the data passed, some msg is the
validation failure message. -/
abbrev Validator := Record → Option String

/-- A schema definition: table name, primary key field, validator. -/
structure SchemaDefinition where
  name : String
  pk : String
  schema : Validator

/-- The already-merged client configuration (setConfig defaults applied). -/
structure NedisConfig where
  host : String
  port : Nat

/-- Optional user configuration before merging with defaults. -/
structure NedisConfigInput where
  host : Option String
  port : Option Nat

/-- setConfig: Object.assign of the user configuration over the defaults. -/
def setConfigMerge (input : NedisConfigInput) : NedisConfig :=
  { host := input.host.getD "localhost", port := input.port.getD 6379 }

/-- The client: configuration, registered schemas, connection flag. -/
structure NedisClient where
  config : NedisConfig
  registeredSchemas : List SchemaDefinition
  connected : Bool

/-- createClient: fresh client, no schemas, not yet connected. -/
def createClient (input : NedisConfigInput) : NedisClient :=
  { config := setConfigMerge input, registeredSchemas := [], connected := false }

/-- registerSchema: fail with DuplicateSchemaError when the name is taken,
else push the definition. -/
def registerSchema (c : NedisClient) (sd : SchemaDefinition) :
    Except NedisError Unit × NedisClient :=
  if c.registeredSchemas.any (fun s => s.name == sd.name) then
    (.error (.duplicateSchemaError sd.name), c)
  else
    (.ok (), { c with registeredSchemas := c.registeredSchemas ++ [sd] })

/-- registerSchemas: register each definition in order; the first thrown
DuplicateSchemaError aborts the traversal, earlier registrations persist. -/
def registerSchemas (c : NedisClient) :
    List SchemaDefinition → Except NedisError Unit × NedisClient
  | [] => (.ok (), c)
  | sd :: rest =>
    match registerSchema c sd with
    | (.ok _, c) => registerSchemas c rest
    | (.error e, c) => (.error e, c)

/-- validateSchema: the registered definition for the table, or
UnregisteredSchemaError. -/
def validateSchema (c : NedisClient) (table : String) :
    Except NedisError SchemaDefinition :=
  match c.registeredSchemas.find? (fun s => s.name == table) with
  | some sd => .ok sd
  | none => .error (.unregisteredSchemaError table)

/-- validateData: run the Joi validator; a failure message becomes a
ValidationError. -/
def validateData (data : Record) (js : Validator) : Except NedisError Bool :=
  match js data with
  | none => .ok true
  | some msg => .error (.validationError msg)

/-- The connection failure message built in connect. -/
def connMsg (c : NedisClient) : String :=
  "Could not connect to redis at " ++ c.config.host ++ ":" ++ toString c.config.port

/-- connect: attempt the connection; on failure throw ConnectionError naming
host and port, leaving the flag unset. -/
def connect (c : NedisClient) (st : RedisState) :
    Except NedisError Unit × NedisClient :=
  if st.connectOk then (.ok (), { c with connected := true })
  else (.error (.connectionError (connMsg c)), c)

/-- checkConnection: connect lazily, one time. -/
def checkConnection (c : NedisClient) (st : RedisState) :
    Except NedisError Unit × NedisClient :=
  if c.connected then (.ok (), c) else connect c st

/-- getKey: the fully-qualified key, [table, pk].join(`:`). -/
def getKey (table pk : String) : String := table ++ ":" ++ pk

/-- lmembers: the raw index list of a table.  Note: the source performs no
connection check here. -/
def lmembers (c : NedisClient) (st : RedisState) (table : String) :
    Except NedisError (List String) × NedisClient × RedisState :=
  (.ok (lrangeAll st table), c, st)

/-- addToIndex: read the full index; a key already present is a detected
consistency violation (DatabaseInsertError), otherwise append it. -/
def addToIndex (c : NedisClient) (st : RedisState) (table key : String) :
    Except NedisError Bool × NedisClient × RedisState :=
  match checkConnection c st with
  | (.error e, c) => (.error e, c, st)
  | (.ok _, c) =>
    match lmembers c st table with
    | (.error e, c, st) => (.error e, c, st)
    | (.ok members, c, st) =>
      if members.contains key then
        (.error (.databaseInsertError key "Key doesnt exist but key is in table set."),
         c, st)
      else
        (.ok true, c, rpushS st table key)

/-- insert: connection check, schema lookup, validation, existence check,
index add, hash write; failures from the last two wrap as
DatabaseInsertError unless already one. -/
def insert (c : NedisClient) (st : RedisState) (table : String) (data : Record) :
    Except NedisError Bool × NedisClient × RedisState :=
  match checkConnection c st with
  | (.error e, c) => (.error e, c, st)
  | (.ok _, c) =>
    match validateSchema c table with
    | .error e => (.error e, c, st)
    | .ok schemaDef =>
      match validateData data schemaDef.schema with
      | .error e => (.error e, c, st)
      | .ok _ =>
        let key := getKey table (fieldD data schemaDef.pk)
        if rexists st key then (.error (.itemAlreadyExistsError key), c, st)
        else
          match addToIndex c st table key with
          | (.error (.databaseInsertError k m), c, st) =>
              (.error (.databaseInsertError k m), c, st)
          | (.error e, c, st) =>
              (.error (.databaseInsertError key e.message), c, st)
          | (.ok _, c, st) => (.ok true, c, hmsetS st key data)

/-- get: read the hash at table:pk; a falsy primary-key field in the result
means the item does not exist. -/
def get (c : NedisClient) (st : RedisState) (table pk : String) :
    Except NedisError Record × NedisClient × RedisState :=
  match checkConnection c st with
  | (.error e, c) => (.error e, c, st)
  | (.ok _, c) =>
    match validateSchema c table with
    | .error e => (.error e, c, st)
    | .ok schemaDef =>
      let result := hgetallS st (table ++ ":" ++ pk)
      if truthy (lookupA result schemaDef.pk) then (.ok result, c, st)
      else (.error (.itemNotFoundError pk table), c, st)

/-- getAll: read the index members, then each member hash in index order. -/
def getAll (c : NedisClient) (st : RedisState) (table : String) :
    Except NedisError (List Record) × NedisClient × RedisState :=
  match checkConnection c st with
  | (.error e, c) => (.error e, c, st)
  | (.ok _, c) =>
    match validateSchema c table with
    | .error e => (.error e, c, st)
    | .ok _ =>
      match lmembers c st table with
      | (.error e, c, st) => (.error e, c, st)
      | (.ok members, c, st) =>
        (.ok (members.map (fun key => hgetallS st key)), c, st)

/-- update: fetch the record, merge the new fields over it, write the merged
object back.  No re-validation, no index change. -/
def update (c : NedisClient) (st : RedisState) (table pk : String) (data : Record) :
    Except NedisError Record × NedisClient × RedisState :=
  match checkConnection c st with
  | (.error e, c) => (.error e, c, st)
  | (.ok _, c) =>
    match get c st table pk with
    | (.error e, c, st) => (.error e, c, st)
    | (.ok item, c, st) =>
      let updatedObject := objAssign item data
      (.ok updatedObject, c, hmsetS st (getKey table pk) updatedObject)

/-- delete: fetch the record to assert existence, remove one index entry,
then delete the hash. -/
def delete (c : NedisClient) (st : RedisState) (table pk : String) :
    Except NedisError Bool × NedisClient × RedisState :=
  match checkConnection c st with
  | (.error e, c) => (.error e, c, st)
  | (.ok _, c) =>
    match get c st table pk with
    | (.error e, c, st) => (.error e, c, st)
    | (.ok _, c, st) =>
      let key := getKey table pk
      let st := lremS st table key
      let st := delS st key
      (.ok true, c, st)

/-! ### Auxiliary definitions for the verification -/

/-- First-some choice on options (JS: overriding lookup). -/
def orO {V : Type} : Option V → Option V → Option V
  | some v, _ => some v
  | none, o => o

/-- Fold a list of keys into a key sequence, appending each unseen key. -/
def insKeys (S : List String) : List String → List String
  | [] => S
  | k :: L => insKeys (if k ∈ S then S else S ++ [k]) L

/-- Remove the first row carrying a given primary key. -/
def removeRow (p : String) : List (String × Record) → List (String × Record)
  | [] => []
  | pr :: rest => if pr.1 = p then rest else pr :: removeRow p rest

/-- One logical table operation: insert a record or delete by primary key. -/
inductive TableOp where
  | ins (r : Record)
  | del (p : String)

/-- Run one table operation through the client, discarding the boolean. -/
def applyOp (c : NedisClient) (T : String) (st : RedisState) :
    TableOp → Except NedisError Unit × NedisClient × RedisState
  | .ins r =>
    match insert c st T r with
    | (.ok _, c, st) => (.ok (), c, st)
    | (.error e, c, st) => (.error e, c, st)
  | .del p =>
    match delete c st T p with
    | (.ok _, c, st) => (.ok (), c, st)
    | (.error e, c, st) => (.error e, c, st)

/-- Run a sequence of table operations, stopping at the first failure. -/
def applyOps (c : NedisClient) (T : String) (st : RedisState) :
    List TableOp → Except NedisError Unit × NedisClient × RedisState
  | [] => (.ok (), c, st)
  | op :: rest =>
    match applyOp c T st op with
    | (.ok _, c, st) => applyOps c T st rest
    | (.error e, c, st) => (.error e, c, st)

/-- Abstract effect of one operation on the logical table contents. -/
def specStep (pkF : String) (rows : List (String × Record)) :
    TableOp → List (String × Record)
  | .ins r => rows ++ [(fieldD r pkF, r)]
  | .del p => removeRow p rows

/-- Abstract effect of an operation sequence on the logical table contents. -/
def specRun (pkF : String) : List (String × Record) → List TableOp →
    List (String × Record)
  | rows, [] => rows
  | rows, op :: rest => specRun pkF (specStep pkF rows op) rest

/-- Admissible operation sequences: every insert carries a valid record with
a fresh truthy primary key, every delete targets a present key. -/
def goodOps (sd : SchemaDefinition) : List (String × Record) → List TableOp → Prop
  | _, [] => True
  | rows, .ins r :: rest =>
      sd.schema r = none ∧ (keysA r).Nodup ∧ truthy (lookupA r sd.pk) = true ∧
      fieldD r sd.pk ∉ rows.map Prod.fst ∧
      goodOps sd (rows ++ [(fieldD r sd.pk, r)]) rest
  | rows, .del p :: rest => p ∈ rows.map Prod.fst ∧ goodOps sd (removeRow p rows) rest

/-- The store/abstract-contents correspondence for one table: the index lists
exactly the fully-qualified keys of the rows in order, each row is stored at
its key, no other key of the table is present, primary keys are unique and
truthy, and no list key collides with a record key. -/
structure TableInv (T pkF : String) (st : RedisState)
    (rows : List (String × Record)) : Prop where
  idx : lrangeAll st T = rows.map (fun pr => getKey T pr.1)
  mem : ∀ pr, pr ∈ rows → lookupA st.hashes (getKey T pr.1) = some pr.2
  abs : ∀ p, p ∉ rows.map Prod.fst → lookupA st.hashes (getKey T p) = none
  nod : (rows.map Prod.fst).Nodup
  pkf : ∀ pr, pr ∈ rows →
    truthy (lookupA pr.2 pkF) = true ∧ fieldD pr.2 pkF = pr.1
  nol : ∀ p, lookupA st.lists (getKey T p) = none

/-- The empty store with a working connection. -/
def stEmpty : RedisState := { hashes := [], lists := [], connectOk := true }

/-- A permissive validator (accepts any record). -/
def anyValid : Validator := fun _ => none

/-- Fixture: the dogs schema of the repository demo and tests. -/
def dogsSd : SchemaDefinition := { name := "dogs", pk := "id", schema := anyValid }

/-- Fixture: a connected client with the dogs schema registered. -/
def clientC : NedisClient :=
  { config := { host := "localhost", port := 6379 }
    registeredSchemas := [dogsSd]
    connected := true }

/-- Fixture: a disconnected client with the dogs schema registered. -/
def clientDisc : NedisClient :=
  { config := { host := "localhost", port := 6379 }
    registeredSchemas := [dogsSd]
    connected := false }

/-- Fixture: the demo record. -/
def ralph : Record := [("id", "1"), ("name", "ralph"), ("paws", "4")]

/-- Fixture: a second demo record. -/
def jessey : Record := [("id", "2"), ("name", "jessey"), ("paws", "3")]

/-- Fixture: the store holding exactly ralph under dogs:1. -/
def stOne : RedisState :=
  { hashes := [("dogs:1", ralph)], lists := [("dogs", ["dogs:1"])], connectOk := true }

/-- Fixture: the users schema of the tests. -/
def usersSd : SchemaDefinition := { name := "users", pk := "id", schema := anyValid }

/-- Fixture: a populated store whose connection attempts fail. -/
def stBad : RedisState :=
  { hashes := [("dogs:1", ralph)], lists := [("dogs", ["dogs:1"])], connectOk := false }

/-- Fixture: a store with a dangling index entry (key listed, hash absent). -/
def stDangle : RedisState :=
  { hashes := [], lists := [("dogs", ["dogs:1"])], connectOk := true }

/-- Fixture: a connected client with the colliding tables a and a:b. -/
def clientAB : NedisClient :=
  { config := { host := "localhost", port := 6379 }
    registeredSchemas :=
      [{ name := "a", pk := "id", schema := anyValid },
       { name := "a:b", pk := "id", schema := anyValid }]
    connected := true }

/-- Fixture: a record whose primary-key value contains a colon. -/
def recBC : Record := [("id", "b:c"), ("name", "x")]

/-- Fixture: the store after inserting recBC into table a. -/
def stAfter : RedisState :=
  { hashes := [("a:b:c", recBC)], lists := [("a", ["a:b:c"])], connectOk := true }

/-- Fixture: the store after updating the aliased record through table a:b. -/
def stMutAB : RedisState :=
  { hashes := [("a:b:c", [("id", "b:c"), ("name", "y")])]
    lists := [("a", ["a:b:c"])]
    connectOk := true }

/-- Fixture: the store after deleting the aliased record through table a:b. -/
def stDelAB : RedisState :=
  { hashes := []
    lists := [("a", ["a:b:c"]), ("a:b", [])]
    connectOk := true }

/-! ### Association-list lemmas -/

@[simp]
theorem keysA_nil {V : Type} : keysA ([] : List (String × V)) = [] := rfl

@[simp]
theorem keysA_cons {V : Type} (kv : String × V) (rest : List (String × V)) :
    keysA (kv :: rest) = kv.1 :: keysA rest := rfl

@[simp]
theorem keysA_append {V : Type} (m₁ m₂ : List (String × V)) :
    keysA (m₁ ++ m₂) = keysA m₁ ++ keysA m₂ := by
  simp [keysA]

@[simp]
theorem lookupA_setA_self {V : Type} (m : List (String × V)) (k : String) (v : V) :
    lookupA (setA m k v) k = some v := by
  induction m with
  | nil => simp [setA, lookupA]
  | cons kv rest ih =>
    by_cases h : kv.1 = k <;> simp [setA, lookupA, h, ih]

theorem lookupA_setA_ne {V : Type} (m : List (String × V)) {k k' : String} (v : V)
    (h : k' ≠ k) : lookupA (setA m k v) k' = lookupA m k' := by
  induction m with
  | nil => simp [setA, lookupA, Ne.symm h]
  | cons kv rest ih =>
    by_cases hk : kv.1 = k
    · subst hk
      simp [setA, lookupA, Ne.symm h]
    · by_cases hk' : kv.1 = k' <;> simp [setA, lookupA, hk, hk', h, ih]

@[simp]
theorem lookupA_removeA_self {V : Type} (m : List (String × V)) (k : String) :
    lookupA (removeA m k) k = none := by
  induction m with
  | nil => simp [removeA, lookupA]
  | cons kv rest ih =>
    by_cases h : kv.1 = k <;> simp [removeA, lookupA, h, ih]

theorem lookupA_removeA_ne {V : Type} (m : List (String × V)) {k k' : String}
    (h : k' ≠ k) : lookupA (removeA m k) k' = lookupA m k' := by
  induction m with
  | nil => simp [removeA, lookupA]
  | cons kv rest ih =>
    by_cases hk : kv.1 = k
    · have h1 : kv.1 ≠ k' := fun h' => h (h'.symm.trans hk)
      simp [removeA, lookupA, hk, h1, Ne.symm h, ih]
    · by_cases hk' : kv.1 = k' <;> simp [removeA, lookupA, hk, hk', h, ih]

theorem lookupA_eq_none_of_not_mem {V : Type} {m : List (String × V)} {k : String}
    (h : k ∉ keysA m) : lookupA m k = none := by
  induction m with
  | nil => simp [lookupA]
  | cons kv rest ih =>
    simp at h
    have h1 : kv.1 ≠ k := fun h' => h.1 h'.symm
    simp [lookupA, h1, ih h.2]

theorem lookupA_isSome_of_mem_keys {V : Type} {m : List (String × V)} {k : String}
    (h : k ∈ keysA m) : (lookupA m k).isSome := by
  induction m with
  | nil => simp at h
  | cons kv rest ih =>
    simp at h
    by_cases h1 : kv.1 = k
    · simp [lookupA, h1]
    · rcases h with h | h
      · exact absurd h.symm h1
      · simp [lookupA, h1, ih h]

theorem setA_of_not_mem {V : Type} {m : List (String × V)} {k : String} (v : V)
    (h : k ∉ keysA m) : setA m k v = m ++ [(k, v)] := by
  induction m with
  | nil => simp [setA]
  | cons kv rest ih =>
    simp at h
    have h1 : kv.1 ≠ k := fun h' => h.1 h'.symm
    simp [setA, h1, ih h.2]

theorem setA_of_lookup_eq {V : Type} {m : List (String × V)} {k : String} {v : V}
    (h : lookupA m k = some v) : setA m k v = m := by
  induction m with
  | nil => simp [lookupA] at h
  | cons kv rest ih =>
    obtain ⟨a, b⟩ := kv
    by_cases h1 : a = k
    · simp [lookupA, h1] at h
      simp [setA, h1, h]
    · simp [lookupA, h1] at h
      simp [setA, h1, ih h]

theorem keysA_setA {V : Type} (m : List (String × V)) (k : String) (v : V) :
    keysA (setA m k v) = if k ∈ keysA m then keysA m else keysA m ++ [k] := by
  induction m with
  | nil => simp [setA]
  | cons kv rest ih =>
    by_cases h1 : kv.1 = k
    · simp [setA, h1]
    · have h2 : ¬(k = kv.1) := fun h' => h1 h'.symm
      by_cases h3 : k ∈ keysA rest <;> simp [setA, h1, h2, h3, ih]

/-! ### Object-assign lemmas -/

@[simp]
theorem objAssign_nil_right (m : Record) : objAssign m [] = m := rfl

theorem objAssign_cons (m : Record) (kv : String × String) (u : Record) :
    objAssign m (kv :: u) = objAssign (setA m kv.1 kv.2) u := rfl

theorem objAssign_of_disjoint {u : Record} (m : Record)
    (hd : ∀ k ∈ keysA u, k ∉ keysA m) (hn : (keysA u).Nodup) :
    objAssign m u = m ++ u := by
  induction u generalizing m with
  | nil => simp
  | cons kv u' ih =>
    obtain ⟨a, b⟩ := kv
    simp at hd hn
    rw [objAssign_cons]
    have hset : setA m a b = m ++ [(a, b)] := setA_of_not_mem b hd.1
    rw [hset, ih (m ++ [(a, b)])]
    · simp
    · intro k hk
      simp
      exact ⟨hd.2 k hk, fun h' => hn.1 (h' ▸ hk)⟩
    · exact hn.2

theorem objAssign_nil_left {r : Record} (hn : (keysA r).Nodup) :
    objAssign [] r = r := by
  have := objAssign_of_disjoint (u := r) [] (by simp) hn
  simpa using this

theorem lookupA_objAssign {u : Record} (m : Record) (k : String)
    (hn : (keysA u).Nodup) :
    lookupA (objAssign m u) k = orO (lookupA u k) (lookupA m k) := by
  induction u generalizing m with
  | nil => simp [lookupA, orO]
  | cons kv u' ih =>
    obtain ⟨a, b⟩ := kv
    simp at hn
    rw [objAssign_cons]
    rw [ih (setA m a b) hn.2]
    by_cases hak : a = k
    · subst hak
      have h0 : lookupA u' a = none := lookupA_eq_none_of_not_mem hn.1
      simp [h0, lookupA, orO]
    · have h1 : lookupA (setA m a b) k = lookupA m k :=
        lookupA_setA_ne m b (fun h => hak h.symm)
      simp [h1, lookupA, hak]

theorem keysA_objAssign (m u : Record) :
    keysA (objAssign m u) = insKeys (keysA m) (keysA u) := by
  induction u generalizing m with
  | nil => simp [insKeys]
  | cons kv u' ih =>
    obtain ⟨a, b⟩ := kv
    rw [objAssign_cons]
    simp only [keysA_cons, insKeys]
    rw [ih (setA m a b), keysA_setA]
    rfl

theorem insKeys_absorbed {P : List String} (S : List String)
    (h : ∀ k ∈ P, k ∈ S) : ∀ Q, insKeys S (P ++ Q) = insKeys S Q := by
  induction P with
  | nil => simp
  | cons a P' ih =>
    intro Q
    simp at h
    simp only [List.cons_append, insKeys, if_pos h.1]
    exact ih h.2 Q

theorem insKeys_new {D : List String} (S : List String)
    (hn : D.Nodup) (h : ∀ k ∈ D, k ∉ S) : insKeys S D = S ++ D := by
  induction D generalizing S with
  | nil => simp [insKeys]
  | cons a D' ih =>
    simp at hn h
    simp only [insKeys, if_neg h.1]
    rw [ih (S ++ [a]) hn.2]
    · simp
    · intro k hk
      simp
      exact ⟨h.2 k hk, fun h' => hn.1 (h' ▸ hk)⟩

theorem insKeys_shape (L : List String) :
    ∀ S, ∃ D, insKeys S L = S ++ D ∧ D.Nodup ∧ ∀ k ∈ D, k ∉ S := by
  induction L with
  | nil => exact fun S => ⟨[], by simp [insKeys], by simp, by simp⟩
  | cons a L' ih =>
    intro S
    by_cases ha : a ∈ S
    · obtain ⟨D, h1, h2, h3⟩ := ih S
      exact ⟨D, by simpa [insKeys, ha] using h1, h2, h3⟩
    · obtain ⟨D, h1, h2, h3⟩ := ih (S ++ [a])
      refine ⟨a :: D, ?_, ?_, ?_⟩
      · simp only [insKeys, if_neg ha]
        rw [h1]
        simp
      · refine List.nodup_cons.mpr ⟨fun h => ?_, h2⟩
        exact h3 a h (by simp)
      · intro k hk
        rcases List.mem_cons.mp hk with h | h
        · exact h ▸ ha
        · intro hS
          exact h3 k h (by simp [hS])

theorem aListExt {V : Type} {r1 r2 : List (String × V)}
    (hk : keysA r1 = keysA r2) (hn : (keysA r1).Nodup)
    (hl : ∀ k, lookupA r1 k = lookupA r2 k) : r1 = r2 := by
  induction r1 generalizing r2 with
  | nil =>
    cases r2 with
    | nil => rfl
    | cons kv rest => simp at hk
  | cons kv t1 ih =>
    cases r2 with
    | nil => simp at hk
    | cons kv2 t2 =>
      obtain ⟨a, b⟩ := kv
      obtain ⟨a2, b2⟩ := kv2
      simp at hk hn
      obtain ⟨hfst, htail⟩ := hk
      subst hfst
      have hv : b = b2 := by
        have := hl a
        simpa [lookupA] using this
      subst hv
      have htl : t1 = t2 := by
        refine ih htail hn.2 (fun k => ?_)
        by_cases hka : a = k
        · subst hka
          rw [lookupA_eq_none_of_not_mem hn.1,
            lookupA_eq_none_of_not_mem (htail ▸ hn.1)]
        · have h1 := hl k
          simpa [lookupA, hka] using h1
      rw [htl]

theorem keysA_objAssign_nodup {m : Record} (u : Record)
    (hn : (keysA m).Nodup) : (keysA (objAssign m u)).Nodup := by
  rw [keysA_objAssign]
  obtain ⟨D, h1, h2, h3⟩ := insKeys_shape (keysA u) (keysA m)
  rw [h1]
  refine List.nodup_append.mpr ⟨hn, h2, ?_⟩
  intro a ha hb
  exact h3 a hb ha

theorem objAssign_absorb {a d : Record}
    (hna : (keysA a).Nodup) (hnd : (keysA d).Nodup) :
    objAssign a (objAssign a d) = objAssign a d := by
  have hm : (keysA (objAssign a d)).Nodup := keysA_objAssign_nodup d hna
  refine aListExt ?_ ?_ ?_
  · rw [keysA_objAssign, keysA_objAssign]
    obtain ⟨D, h1, h2, h3⟩ := insKeys_shape (keysA d) (keysA a)
    rw [h1, insKeys_absorbed (keysA a) (fun k hk => hk) D,
      insKeys_new (keysA a) h2 h3]
  · rw [keysA_objAssign]
    rw [keysA_objAssign] at hm
    obtain ⟨D, h1, h2, h3⟩ := insKeys_shape (keysA (objAssign a d)) (keysA a)
    rw [h1]
    refine List.nodup_append.mpr ⟨hna, h2, ?_⟩
    intro x hx hy
    exact h3 x hy hx
  · intro k
    rw [lookupA_objAssign a k hm]
    rcases h : lookupA (objAssign a d) k with _ | v
    · rw [lookupA_objAssign a k hnd] at h
      cases h2 : lookupA d k with
      | none => simp [h2, orO] at h; simp [orO, h]
      | some w => simp [h2, orO] at h
    · simp [orO]

/-! ### Fully-qualified key lemmas -/

theorem getKey_inj {T p1 p2 : String} (h : getKey T p1 = getKey T p2) : p1 = p2 := by
  have hd := congrArg String.data h
  simp only [getKey, String.data_append] at hd
  exact String.ext (by simpa using hd)

theorem getKey_ne_table (T p : String) : getKey T p ≠ T := by
  intro h
  have hd := congrArg (fun s => s.data.length) h
  simp only [getKey, String.data_append, List.length_append] at hd
  simp at hd
  omega

/-! ### Operation-level run lemmas -/

theorem checkConnection_connected {c : NedisClient} (st : RedisState)
    (h : c.connected = true) : checkConnection c st = (.ok (), c) := by
  simp [checkConnection, h]

theorem checkConnection_fails {c : NedisClient} {st : RedisState}
    (h : c.connected = false) (hk : st.connectOk = false) :
    checkConnection c st = (.error (.connectionError (connMsg c)), c) := by
  simp [checkConnection, h, connect, hk]

theorem insert_ok {c : NedisClient} {st : RedisState} {sd : SchemaDefinition}
    {T : String} {r : Record} {p : String}
    (hconn : c.connected = true)
    (hreg : validateSchema c T = .ok sd)
    (hval : sd.schema r = none)
    (hnod : (keysA r).Nodup)
    (hpk : lookupA r sd.pk = some p)
    (habsH : lookupA st.hashes (getKey T p) = none)
    (habsL : lookupA st.lists (getKey T p) = none)
    (hidx : getKey T p ∉ lrangeAll st T) :
    insert c st T r =
      (.ok true, c,
        { hashes := setA st.hashes (getKey T p) r,
          lists := setA st.lists T (lrangeAll st T ++ [getKey T p]),
          connectOk := st.connectOk }) := by
  have hfd : fieldD r sd.pk = p := by simp [fieldD, hpk]
  have hex : rexists st (getKey T p) = false := by
    simp [rexists, hgetallS, lrangeAll, habsH, habsL]
  have hcontains : (lrangeAll st T).contains (getKey T p) = false := by
    simpa using hidx
  simp only [insert, checkConnection_connected st hconn, hreg, validateData, hval,
    hfd, hex, Bool.false_eq_true, if_false, addToIndex,
    checkConnection_connected st hconn, lmembers, hcontains, rpushS]
  have hget1 : hgetallS { st with lists := setA st.lists T (lrangeAll st T ++ [getKey T p]) }
      (getKey T p) = [] := by
    simp [hgetallS, habsH]
  simp only [hmsetS, hget1, objAssign_nil_left hnod]

theorem get_found {c : NedisClient} {st : RedisState} {sd : SchemaDefinition}
    {T p : String} {r : Record}
    (hconn : c.connected = true)
    (hreg : validateSchema c T = .ok sd)
    (hsome : lookupA st.hashes (getKey T p) = some r)
    (htr : truthy (lookupA r sd.pk) = true) :
    get c st T p = (.ok r, c, st) := by
  have hh : hgetallS st (T ++ ":" ++ p) = r := by
    simpa [hgetallS, getKey] using congrArg (Option.getD · []) hsome
  simp only [get, checkConnection_connected st hconn, hreg, hh, htr, if_true]

theorem get_missing {c : NedisClient} {st : RedisState} {sd : SchemaDefinition}
    {T p : String}
    (hconn : c.connected = true)
    (hreg : validateSchema c T = .ok sd)
    (hfalsy : truthy (lookupA (hgetallS st (getKey T p)) sd.pk) = false) :
    get c st T p = (.error (.itemNotFoundError p T), c, st) := by
  have hk : (T ++ ":" ++ p) = getKey T p := rfl
  simp only [get, checkConnection_connected st hconn, hreg, hk, hfalsy,
    Bool.false_eq_true, if_false]

theorem getAll_run {c : NedisClient} {st : RedisState} {sd : SchemaDefinition}
    {T : String}
    (hconn : c.connected = true)
    (hreg : validateSchema c T = .ok sd) :
    getAll c st T =
      (.ok ((lrangeAll st T).map (fun key => hgetallS st key)), c, st) := by
  simp only [getAll, checkConnection_connected st hconn, hreg, lmembers]

theorem update_run {c : NedisClient} {st : RedisState} {sd : SchemaDefinition}
    {T p : String} {d item : Record}
    (hconn : c.connected = true)
    (hreg : validateSchema c T = .ok sd)
    (hsome : lookupA st.hashes (getKey T p) = some item)
    (htr : truthy (lookupA item sd.pk) = true) :
    update c st T p d =
      (.ok (objAssign item d), c,
        { st with
            hashes := setA st.hashes (getKey T p)
              (objAssign item (objAssign item d)) }) := by
  have hget := get_found hconn hreg hsome htr
  have hh : hgetallS st (getKey T p) = item := by
    simp [hgetallS, hsome]
  simp only [update, checkConnection_connected st hconn, hget, hmsetS, hh]

theorem delete_ok {c : NedisClient} {st : RedisState} {sd : SchemaDefinition}
    {T p : String} {r : Record}
    (hconn : c.connected = true)
    (hreg : validateSchema c T = .ok sd)
    (hsome : lookupA st.hashes (getKey T p) = some r)
    (htr : truthy (lookupA r sd.pk) = true) :
    delete c st T p =
      (.ok true, c,
        { hashes := removeA st.hashes (getKey T p),
          lists := removeA
            (setA st.lists T (removeFirst (getKey T p) (lrangeAll st T)))
            (getKey T p),
          connectOk := st.connectOk }) := by
  have hget := get_found hconn hreg hsome htr
  simp only [delete, checkConnection_connected st hconn, hget, lremS, delS]

/-! ### Row-list lemmas for the index invariant -/

theorem truthy_some {o : Option String} (h : truthy o = true) :
    o = some (o.getD "") ∧ o.getD "" ≠ "" := by
  cases o with
  | none => simp [truthy] at h
  | some s =>
    simp [truthy] at h
    simp [h]

theorem removeRow_sublist (p : String) (rows : List (String × Record)) :
    (removeRow p rows).Sublist rows := by
  induction rows with
  | nil => simp [removeRow]
  | cons pr rest ih =>
    by_cases h : pr.1 = p
    · simp [removeRow, h]
    · simpa [removeRow, h] using ih.cons₂ pr

theorem removeRow_mem {p : String} {rows : List (String × Record)}
    {pr : String × Record}
    (hnod : (rows.map Prod.fst).Nodup) (h : pr ∈ removeRow p rows) :
    pr ∈ rows ∧ pr.1 ≠ p := by
  induction rows with
  | nil => simp [removeRow] at h
  | cons q rest ih =>
    rw [List.map_cons, List.nodup_cons] at hnod
    obtain ⟨hq1, hq2⟩ := hnod
    by_cases hq : q.1 = p
    · rw [show removeRow p (q :: rest) = rest from by rw [removeRow, if_pos hq]] at h
      refine ⟨List.mem_cons_of_mem q h, fun h' => hq1 ?_⟩
      have hmem := List.mem_map_of_mem Prod.fst h
      rw [hq, ← h']
      exact hmem
    · rw [show removeRow p (q :: rest) = q :: removeRow p rest from
        by rw [removeRow, if_neg hq], List.mem_cons] at h
      rcases h with h | h
      · rw [h]
        exact ⟨List.mem_cons_self q rest, hq⟩
      · obtain ⟨h1, h2⟩ := ih hq2 h
        exact ⟨List.mem_cons_of_mem q h1, h2⟩

theorem removeRow_fst_mem {p p' : String} {rows : List (String × Record)}
    (hne : p' ≠ p) (h : p' ∈ rows.map Prod.fst) :
    p' ∈ (removeRow p rows).map Prod.fst := by
  induction rows with
  | nil => simp at h
  | cons q rest ih =>
    rw [List.map_cons, List.mem_cons] at h
    by_cases hq : q.1 = p
    · rw [show removeRow p (q :: rest) = rest from by rw [removeRow, if_pos hq]]
      rcases h with h | h
      · exact absurd (h.trans hq) hne
      · exact h
    · rw [show removeRow p (q :: rest) = q :: removeRow p rest from
        by rw [removeRow, if_neg hq], List.map_cons, List.mem_cons]
      rcases h with h | h
      · exact Or.inl h
      · exact Or.inr (ih h)

theorem removeFirst_map_getKey (T p : String) (rows : List (String × Record)) :
    removeFirst (getKey T p) (rows.map (fun pr => getKey T pr.1)) =
      (removeRow p rows).map (fun pr => getKey T pr.1) := by
  induction rows with
  | nil => simp [removeFirst, removeRow]
  | cons q rest ih =>
    by_cases hq : q.1 = p
    · simp [removeFirst, removeRow, hq]
    · have hne : getKey T q.1 ≠ getKey T p := fun h => hq (getKey_inj h)
      simp [removeFirst, removeRow, hq, hne, ih]

theorem mem_map_getKey {T p : String} {rows : List (String × Record)} :
    getKey T p ∈ rows.map (fun pr => getKey T pr.1) ↔ p ∈ rows.map Prod.fst := by
  constructor
  · intro h
    obtain ⟨pr, hpr, heq⟩ := List.mem_map.mp h
    exact List.mem_map.mpr ⟨pr, hpr, getKey_inj heq⟩
  · intro h
    obtain ⟨pr, hpr, heq⟩ := List.mem_map.mp h
    exact List.mem_map.mpr ⟨pr, hpr, by rw [heq]⟩

/-! ### Invariant preservation -/

theorem invEmpty (T pkF : String) : TableInv T pkF stEmpty [] := by
  refine ⟨?_, ?_, ?_, ?_, ?_, ?_⟩ <;> simp [stEmpty, lrangeAll, lookupA]

theorem invInsert {c : NedisClient} {st : RedisState} {sd : SchemaDefinition}
    {T : String} {rows : List (String × Record)} {r : Record}
    (hconn : c.connected = true) (hreg : validateSchema c T = .ok sd)
    (inv : TableInv T sd.pk st rows)
    (hval : sd.schema r = none) (hnod : (keysA r).Nodup)
    (htr : truthy (lookupA r sd.pk) = true)
    (hfresh : fieldD r sd.pk ∉ rows.map Prod.fst) :
    ∃ stI, insert c st T r = (.ok true, c, stI) ∧
      TableInv T sd.pk stI (rows ++ [(fieldD r sd.pk, r)]) := by
  set p := fieldD r sd.pk with hp
  have hpk : lookupA r sd.pk = some p := (truthy_some htr).1
  have habsH : lookupA st.hashes (getKey T p) = none := inv.abs p hfresh
  have habsL : lookupA st.lists (getKey T p) = none := inv.nol p
  have hidx : getKey T p ∉ lrangeAll st T := by
    rw [inv.idx]
    intro h
    exact hfresh (mem_map_getKey.mp h)
  refine ⟨_, insert_ok hconn hreg hval hnod hpk habsH habsL hidx, ?_⟩
  refine ⟨?_, ?_, ?_, ?_, ?_, ?_⟩
  · show (lookupA (setA st.lists T (lrangeAll st T ++ [getKey T p])) T).getD [] = _
    rw [lookupA_setA_self]
    simp [inv.idx]
  · intro pr hpr
    rcases List.mem_append.mp hpr with h | h
    · have hne : pr.1 ≠ p := by
        intro h'
        exact hfresh (h' ▸ List.mem_map_of_mem Prod.fst h)
      have hkey : getKey T pr.1 ≠ getKey T p := fun h' => hne (getKey_inj h')
      show lookupA (setA st.hashes (getKey T p) r) (getKey T pr.1) = some pr.2
      rw [lookupA_setA_ne st.hashes r hkey]
      exact inv.mem pr h
    · simp at h
      subst h
      exact lookupA_setA_self st.hashes (getKey T p) r
  · intro p' hp'
    simp at hp'
    have hne : p' ≠ p := hp'.2
    have hkey : getKey T p' ≠ getKey T p := fun h' => hne (getKey_inj h')
    show lookupA (setA st.hashes (getKey T p) r) (getKey T p') = none
    rw [lookupA_setA_ne st.hashes r hkey]
    exact inv.abs p' (by simpa using hp'.1)
  · simp only [List.map_append]
    refine List.nodup_append.mpr ⟨inv.nod, by simp, ?_⟩
    intro a ha hb
    simp at hb
    exact hfresh (hb ▸ ha)
  · intro pr hpr
    rcases List.mem_append.mp hpr with h | h
    · exact inv.pkf pr h
    · simp at h
      subst h
      exact ⟨htr, rfl⟩
  · intro p'
    show lookupA (setA st.lists T (lrangeAll st T ++ [getKey T p])) (getKey T p') = none
    rw [lookupA_setA_ne st.lists _ (getKey_ne_table T p')]
    exact inv.nol p'

theorem invDelete {c : NedisClient} {st : RedisState} {sd : SchemaDefinition}
    {T : String} {rows : List (String × Record)} {p : String}
    (hconn : c.connected = true) (hreg : validateSchema c T = .ok sd)
    (inv : TableInv T sd.pk st rows)
    (hmem : p ∈ rows.map Prod.fst) :
    ∃ stD, delete c st T p = (.ok true, c, stD) ∧
      TableInv T sd.pk stD (removeRow p rows) := by
  obtain ⟨pr, hpr, hfst⟩ := List.mem_map.mp hmem
  obtain ⟨htr, hfd⟩ := inv.pkf pr hpr
  have hsome : lookupA st.hashes (getKey T p) = some pr.2 := hfst ▸ inv.mem pr hpr
  refine ⟨_, delete_ok hconn hreg hsome htr, ?_⟩
  refine ⟨?_, ?_, ?_, ?_, ?_, ?_⟩
  · show (lookupA (removeA (setA st.lists T
        (removeFirst (getKey T p) (lrangeAll st T))) (getKey T p)) T).getD [] = _
    rw [lookupA_removeA_ne _ (Ne.symm (getKey_ne_table T p)), lookupA_setA_self]
    simp [inv.idx, removeFirst_map_getKey]
  · intro q hq
    obtain ⟨hq1, hq2⟩ := removeRow_mem inv.nod hq
    have hkey : getKey T q.1 ≠ getKey T p := fun h' => hq2 (getKey_inj h')
    show lookupA (removeA st.hashes (getKey T p)) (getKey T q.1) = some q.2
    rw [lookupA_removeA_ne _ hkey]
    exact inv.mem q hq1
  · intro p' hp'
    by_cases hne : p' = p
    · subst hne
      exact lookupA_removeA_self st.hashes (getKey T p')
    · have hkey : getKey T p' ≠ getKey T p := fun h' => hne (getKey_inj h')
      show lookupA (removeA st.hashes (getKey T p)) (getKey T p') = none
      rw [lookupA_removeA_ne _ hkey]
      refine inv.abs p' (fun hmem' => hp' ?_)
      exact removeRow_fst_mem hne hmem'
  · exact ((removeRow_sublist p rows).map Prod.fst).nodup inv.nod
  · intro q hq
    exact inv.pkf q (removeRow_mem inv.nod hq).1
  · intro p'
    by_cases hne : getKey T p' = getKey T p
    · rw [hne]
      exact lookupA_removeA_self _ _
    · show lookupA (removeA (setA st.lists T
          (removeFirst (getKey T p) (lrangeAll st T))) (getKey T p)) (getKey T p') = none
      rw [lookupA_removeA_ne _ hne,
        lookupA_setA_ne st.lists _ (getKey_ne_table T p')]
      exact inv.nol p'

theorem getAll_inv {c : NedisClient} {st : RedisState} {sd : SchemaDefinition}
    {T : String} {rows : List (String × Record)}
    (hconn : c.connected = true) (hreg : validateSchema c T = .ok sd)
    (inv : TableInv T sd.pk st rows) :
    getAll c st T = (.ok (rows.map Prod.snd), c, st) := by
  rw [getAll_run hconn hreg, inv.idx]
  have : ∀ pr ∈ rows, hgetallS st (getKey T pr.1) = pr.2 := by
    intro pr hpr
    simp [hgetallS, inv.mem pr hpr]
  rw [List.map_map]
  have hmc : rows.map ((fun key => hgetallS st key) ∘ fun pr => getKey T pr.1)
      = rows.map Prod.snd := List.map_congr_left this
  rw [hmc]

theorem applyOps_good {c : NedisClient} {sd : SchemaDefinition} {T : String}
    (hconn : c.connected = true) (hreg : validateSchema c T = .ok sd) :
    ∀ (ops : List TableOp) (rows : List (String × Record)) (st : RedisState),
      TableInv T sd.pk st rows → goodOps sd rows ops →
      ∃ st', applyOps c T st ops = (.ok (), c, st') ∧
        TableInv T sd.pk st' (specRun sd.pk rows ops) := by
  intro ops
  induction ops with
  | nil => exact fun rows st inv _ => ⟨st, rfl, inv⟩
  | cons op rest ih =>
    intro rows st inv hgood
    cases op with
    | ins r =>
      obtain ⟨hval, hnod, htr, hfresh, hrest⟩ := hgood
      obtain ⟨stI, heq, inv'⟩ := invInsert hconn hreg inv hval hnod htr hfresh
      obtain ⟨st', h1, h2⟩ := ih _ _ inv' hrest
      refine ⟨st', ?_, h2⟩
      simp only [applyOps, applyOp, heq, h1]
    | del p =>
      obtain ⟨hmem, hrest⟩ := hgood
      obtain ⟨stD, heq, inv'⟩ := invDelete hconn hreg inv hmem
      obtain ⟨st', h1, h2⟩ := ih _ _ inv' hrest
      refine ⟨st', ?_, h2⟩
      simp only [applyOps, applyOp, heq, h1]

/-! ### Further operation helpers -/

theorem addToIndex_run {c : NedisClient} (st : RedisState) (T key : String)
    (hconn : c.connected = true) :
    addToIndex c st T key =
      if key ∈ lrangeAll st T then
        (.error (.databaseInsertError key "Key doesnt exist but key is in table set."),
         c, st)
      else
        (.ok true, c, rpushS st T key) := by
  by_cases h : key ∈ lrangeAll st T
  · have hc : (lrangeAll st T).contains key = true := by simpa using h
    simp [addToIndex, checkConnection_connected st hconn, lmembers, hc, h]
  · have hc : (lrangeAll st T).contains key = false := by simpa using h
    simp [addToIndex, checkConnection_connected st hconn, lmembers, hc, h]

theorem insert_exists_fails {c : NedisClient} {st : RedisState}
    {sd : SchemaDefinition} {T : String} {r : Record} {p : String}
    (hconn : c.connected = true)
    (hreg : validateSchema c T = .ok sd)
    (hval : sd.schema r = none)
    (hpk : lookupA r sd.pk = some p)
    (hex : rexists st (getKey T p) = true) :
    insert c st T r = (.error (.itemAlreadyExistsError (getKey T p)), c, st) := by
  have hfd : fieldD r sd.pk = p := by simp [fieldD, hpk]
  simp only [insert, checkConnection_connected st hconn, hreg, validateData, hval,
    hfd, hex, if_true]

theorem insert_dangling_fails {c : NedisClient} {st : RedisState}
    {sd : SchemaDefinition} {T : String} {r : Record}
    (hconn : c.connected = true)
    (hreg : validateSchema c T = .ok sd)
    (hval : sd.schema r = none)
    (habsH : lookupA st.hashes (getKey T (fieldD r sd.pk)) = none)
    (habsL : lookupA st.lists (getKey T (fieldD r sd.pk)) = none)
    (hidx : getKey T (fieldD r sd.pk) ∈ lrangeAll st T) :
    insert c st T r =
      (.error (.databaseInsertError (getKey T (fieldD r sd.pk))
        "Key doesnt exist but key is in table set."), c, st) := by
  have hex : rexists st (getKey T (fieldD r sd.pk)) = false := by
    simp [rexists, hgetallS, lrangeAll, habsH, habsL]
  have hadd := addToIndex_run st T (getKey T (fieldD r sd.pk)) hconn
  rw [if_pos hidx] at hadd
  simp only [insert, checkConnection_connected st hconn, hreg, validateData, hval,
    hex, Bool.false_eq_true, if_false, hadd]

theorem registerSchemas_append_ok {c c1 : NedisClient}
    {l1 : List SchemaDefinition} (l2 : List SchemaDefinition)
    (h : registerSchemas c l1 = (.ok (), c1)) :
    registerSchemas c (l1 ++ l2) = registerSchemas c1 l2 := by
  induction l1 generalizing c with
  | nil =>
    simp only [registerSchemas, Prod.mk.injEq] at h
    rw [List.nil_append, h.2]
  | cons sd rest ih =>
    rw [List.cons_append]
    simp only [registerSchemas] at h ⊢
    cases hr : registerSchema c sd with
    | mk fst c' =>
      rw [hr] at h
      cases fst with
      | ok u => exact ih h
      | error e => simp at h

/-! ### Claim theorems -/

/-- Claim C1: for every registered table with primary key field pk and every
record passing the validator of the table whose fully-qualified key is not already
present in the store, insert returns true and a subsequent get of the
primary-key value returns a mapping equal to the inserted record. -/
theorem insert_get_roundtrip {c : NedisClient} {st : RedisState}
    {sd : SchemaDefinition} {T : String} {r : Record} {p : String}
    (hconn : c.connected = true)
    (hreg : validateSchema c T = .ok sd)
    (hval : sd.schema r = none)
    (hnod : (keysA r).Nodup)
    (hpk : lookupA r sd.pk = some p)
    (hne : p ≠ "")
    (habsH : lookupA st.hashes (getKey T p) = none)
    (habsL : lookupA st.lists (getKey T p) = none)
    (hidx : getKey T p ∉ lrangeAll st T) :
    ∃ st', insert c st T r = (.ok true, c, st') ∧
      get c st' T p = (.ok r, c, st') := by
  refine ⟨_, insert_ok hconn hreg hval hnod hpk habsH habsL hidx, ?_⟩
  refine get_found hconn hreg ?_ ?_
  · exact lookupA_setA_self st.hashes (getKey T p) r
  · simp [hpk, truthy, hne]

/-- Witness for C1 at the demo fixture: dogs table, record ralph. -/
theorem insert_get_roundtrip_witness :
    clientC.connected = true ∧
    validateSchema clientC "dogs" = .ok dogsSd ∧
    dogsSd.schema ralph = none ∧
    (keysA ralph).Nodup ∧
    lookupA ralph dogsSd.pk = some "1" ∧
    ("1" : String) ≠ "" ∧
    lookupA stEmpty.hashes (getKey "dogs" "1") = none ∧
    lookupA stEmpty.lists (getKey "dogs" "1") = none ∧
    getKey "dogs" "1" ∉ lrangeAll stEmpty "dogs" ∧
    ∃ st', insert clientC stEmpty "dogs" ralph = (.ok true, clientC, st') ∧
      get clientC st' "dogs" "1" = (.ok ralph, clientC, st') :=
  ⟨rfl, rfl, rfl, by decide, rfl, by decide, rfl, rfl, by decide,
    insert_get_roundtrip rfl rfl rfl (by decide) rfl (by decide) rfl rfl (by decide)⟩

/-- Claim C3: a second insert with the same primary key fails with
ItemAlreadyExistsError naming the fully-qualified key, leaves the store
completely unchanged, and get still returns the record stored by the first
insert. -/
theorem insert_duplicate_idempotent_failure {c : NedisClient} {st : RedisState}
    {sd : SchemaDefinition} {T : String} {r rB : Record} {p : String}
    (hconn : c.connected = true)
    (hreg : validateSchema c T = .ok sd)
    (hval : sd.schema r = none)
    (hnod : (keysA r).Nodup)
    (hpk : lookupA r sd.pk = some p)
    (hne : p ≠ "")
    (habsH : lookupA st.hashes (getKey T p) = none)
    (habsL : lookupA st.lists (getKey T p) = none)
    (hidx : getKey T p ∉ lrangeAll st T)
    (hvalB : sd.schema rB = none)
    (hpkB : lookupA rB sd.pk = some p) :
    ∃ st', insert c st T r = (.ok true, c, st') ∧
      insert c st' T rB = (.error (.itemAlreadyExistsError (getKey T p)), c, st') ∧
      get c st' T p = (.ok r, c, st') := by
  refine ⟨_, insert_ok hconn hreg hval hnod hpk habsH habsL hidx, ?_, ?_⟩
  · refine insert_exists_fails hconn hreg hvalB hpkB ?_
    have hr : r ≠ [] := by
      intro h
      rw [h] at hpk
      simp [lookupA] at hpk
    simp [rexists, hgetallS, lookupA_setA_self, List.isEmpty_iff, hr]
  · refine get_found hconn hreg ?_ ?_
    · exact lookupA_setA_self st.hashes (getKey T p) r
    · simp [hpk, truthy, hne]

/-- Witness for C3 at the demo fixture: inserting ralph twice into dogs. -/
theorem insert_duplicate_idempotent_failure_witness :
    clientC.connected = true ∧
    validateSchema clientC "dogs" = .ok dogsSd ∧
    dogsSd.schema ralph = none ∧
    (keysA ralph).Nodup ∧
    lookupA ralph dogsSd.pk = some "1" ∧
    ("1" : String) ≠ "" ∧
    lookupA stEmpty.hashes (getKey "dogs" "1") = none ∧
    lookupA stEmpty.lists (getKey "dogs" "1") = none ∧
    getKey "dogs" "1" ∉ lrangeAll stEmpty "dogs" ∧
    ∃ st', insert clientC stEmpty "dogs" ralph = (.ok true, clientC, st') ∧
      insert clientC st' "dogs" ralph =
        (.error (.itemAlreadyExistsError (getKey "dogs" "1")), clientC, st') ∧
      get clientC st' "dogs" "1" = (.ok ralph, clientC, st') :=
  ⟨rfl, rfl, rfl, by decide, rfl, by decide, rfl, rfl, by decide,
    insert_duplicate_idempotent_failure rfl rfl rfl (by decide) rfl (by decide)
      rfl rfl (by decide) rfl rfl⟩

/-- Claim C7: during insert, the index-add step reads the full index of the table;
a key already present in the index yields DatabaseInsertError describing the
inconsistency with nothing appended, otherwise the key is appended at the end
of the index. -/
theorem addToIndex_spec {c : NedisClient} (st : RedisState) (T key : String)
    (hconn : c.connected = true) :
    addToIndex c st T key =
      if key ∈ lrangeAll st T then
        (.error (.databaseInsertError key "Key doesnt exist but key is in table set."),
         c, st)
      else
        (.ok true, c, rpushS st T key) :=
  addToIndex_run st T key hconn

/-- Witness for C7: a key already present in the dogs index is rejected. -/
theorem addToIndex_spec_witness :
    clientC.connected = true ∧
    addToIndex clientC stOne "dogs" "dogs:1" =
      (if "dogs:1" ∈ lrangeAll stOne "dogs" then
        (.error (.databaseInsertError "dogs:1"
          "Key doesnt exist but key is in table set."), clientC, stOne)
      else
        (.ok true, clientC, rpushS stOne "dogs" "dogs:1")) :=
  ⟨rfl, addToIndex_spec stOne "dogs" "dogs:1" rfl⟩

/-- Claim C2: starting from the empty store, any sequence of successful
inserts (valid records with fresh truthy primary keys) and successful deletes
(of present keys) runs without error, and getAll then returns exactly the
non-deleted records in original insertion order; getAll on the empty table
returns the empty sequence, not an error. -/
theorem getAll_index_consistency {c : NedisClient} {sd : SchemaDefinition}
    {T : String} {ops : List TableOp}
    (hconn : c.connected = true)
    (hreg : validateSchema c T = .ok sd)
    (hops : goodOps sd [] ops) :
    ∃ st', applyOps c T stEmpty ops = (.ok (), c, st') ∧
      getAll c st' T = (.ok ((specRun sd.pk [] ops).map Prod.snd), c, st') ∧
      getAll c stEmpty T = (.ok [], c, stEmpty) := by
  obtain ⟨st', h1, h2⟩ :=
    applyOps_good hconn hreg ops [] stEmpty (invEmpty T sd.pk) hops
  refine ⟨st', h1, getAll_inv hconn hreg h2, ?_⟩
  simpa using getAll_inv hconn hreg (invEmpty T sd.pk)

/-- Witness for C2: insert ralph and jessey, delete dog 1, observe getAll. -/
theorem getAll_index_consistency_witness :
    clientC.connected = true ∧
    validateSchema clientC "dogs" = .ok dogsSd ∧
    goodOps dogsSd [] [.ins ralph, .ins jessey, .del "1"] ∧
    ∃ st', applyOps clientC "dogs" stEmpty [.ins ralph, .ins jessey, .del "1"] =
        (.ok (), clientC, st') ∧
      getAll clientC st' "dogs" =
        (.ok ((specRun dogsSd.pk [] [.ins ralph, .ins jessey, .del "1"]).map
          Prod.snd), clientC, st') ∧
      getAll clientC stEmpty "dogs" = (.ok [], clientC, stEmpty) := by
  have hops : goodOps dogsSd [] [.ins ralph, .ins jessey, .del "1"] :=
    ⟨rfl, by decide, by decide, by decide, rfl, by decide, by decide, by decide,
      by decide, trivial⟩
  exact ⟨rfl, rfl, hops, getAll_index_consistency rfl rfl hops⟩

/-- Claim C4: update on an existing record merges the new fields over the
stored fields (new values win, unnamed fields retained), overwrites the hash
with exactly the merged mapping while leaving the index untouched, and
returns the merged mapping; no validation of the merged result is required
for success. -/
theorem update_merge_spec {c : NedisClient} {st : RedisState}
    {sd : SchemaDefinition} {T p : String} {d item : Record}
    (hconn : c.connected = true)
    (hreg : validateSchema c T = .ok sd)
    (hsome : lookupA st.hashes (getKey T p) = some item)
    (htr : truthy (lookupA item sd.pk) = true)
    (hnitem : (keysA item).Nodup)
    (hnd : (keysA d).Nodup) :
    update c st T p d =
      (.ok (objAssign item d), c,
        { st with
            hashes := setA st.hashes (getKey T p) (objAssign item d) }) ∧
    (∀ f, f ∉ keysA d → lookupA (objAssign item d) f = lookupA item f) ∧
    (∀ f v, lookupA d f = some v → lookupA (objAssign item d) f = some v) := by
  refine ⟨?_, ?_, ?_⟩
  · rw [update_run hconn hreg hsome htr, objAssign_absorb hnitem hnd]
  · intro f hf
    rw [lookupA_objAssign item f hnd, lookupA_eq_none_of_not_mem hf]
    rfl
  · intro f v hv
    rw [lookupA_objAssign item f hnd, hv]
    rfl

/-- Witness for C4: the demo update changing the paws field of ralph. -/
theorem update_merge_spec_witness :
    clientC.connected = true ∧
    validateSchema clientC "dogs" = .ok dogsSd ∧
    lookupA stOne.hashes (getKey "dogs" "1") = some ralph ∧
    truthy (lookupA ralph dogsSd.pk) = true ∧
    (keysA ralph).Nodup ∧
    (keysA [("paws", "2")]).Nodup ∧
    update clientC stOne "dogs" "1" [("paws", "2")] =
      (.ok (objAssign ralph [("paws", "2")]), clientC,
        { stOne with
            hashes := setA stOne.hashes (getKey "dogs" "1")
              (objAssign ralph [("paws", "2")]) }) :=
  ⟨ rfl, rfl, rfl, by decide, by decide, by decide,
    (@update_merge_spec clientC stOne dogsSd "dogs" "1" [("paws", "2")] ralph
      rfl rfl rfl (by decide) (by decide) (by decide)).1⟩

/-- Claim C5 counterexample: update whose new data contains the primary-key
field succeeds and stores, under the old key, a record whose primary-key
field now differs from the addressed key, so update is not prevented from
changing the primary-key field. -/
theorem update_pk_change_cex :
    (update clientC stOne "dogs" "1" [("id", "2")]).1 =
      .ok [("id", "2"), ("name", "ralph"), ("paws", "4")] ∧
    lookupA (hgetallS (update clientC stOne "dogs" "1" [("id", "2")]).2.2
      (getKey "dogs" "1")) "id" = some "2" ∧
    ("2" : String) ≠ "1" :=
  ⟨rfl, rfl, by decide⟩

/-- Claim C5 amended: update does not guard the primary-key field; only when
the new data does not name the primary-key field does the stored record keep
its primary-key field unchanged by the update. -/
theorem update_pk_preserved_without_pk_field {c : NedisClient} {st : RedisState}
    {sd : SchemaDefinition} {T p : String} {d item : Record}
    (hconn : c.connected = true)
    (hreg : validateSchema c T = .ok sd)
    (hsome : lookupA st.hashes (getKey T p) = some item)
    (htr : truthy (lookupA item sd.pk) = true)
    (hnitem : (keysA item).Nodup)
    (hnd : (keysA d).Nodup)
    (hdpk : lookupA d sd.pk = none) :
    ∃ st', update c st T p d = (.ok (objAssign item d), c, st') ∧
      lookupA (hgetallS st' (getKey T p)) sd.pk = lookupA item sd.pk := by
  refine ⟨_, update_run hconn hreg hsome htr, ?_⟩
  have hnm : (keysA (objAssign item d)).Nodup := keysA_objAssign_nodup d hnitem
  simp only [hgetallS, lookupA_setA_self, Option.getD_some]
  rw [lookupA_objAssign item sd.pk hnm, lookupA_objAssign item sd.pk hnd, hdpk]
  cases lookupA item sd.pk <;> rfl

/-- Witness for the C5 amended theorem: updating only paws keeps id intact. -/
theorem update_pk_preserved_without_pk_field_witness :
    clientC.connected = true ∧
    validateSchema clientC "dogs" = .ok dogsSd ∧
    lookupA stOne.hashes (getKey "dogs" "1") = some ralph ∧
    truthy (lookupA ralph dogsSd.pk) = true ∧
    (keysA ralph).Nodup ∧
    (keysA [("paws", "2")]).Nodup ∧
    lookupA [("paws", "2")] dogsSd.pk = none ∧
    ∃ st', update clientC stOne "dogs" "1" [("paws", "2")] =
        (.ok (objAssign ralph [("paws", "2")]), clientC, st') ∧
      lookupA (hgetallS st' (getKey "dogs" "1")) dogsSd.pk =
        lookupA ralph dogsSd.pk :=
  ⟨ rfl, rfl, rfl, by decide, by decide, by decide, by decide,
    @update_pk_preserved_without_pk_field clientC stOne dogsSd "dogs" "1"
      [("paws", "2")] ralph rfl rfl rfl (by decide) (by decide) (by decide)
      (by decide)⟩

/-- Claim C6: batch registration applies single registration to each element
in order and stops at, and propagates, the first DuplicateSchemaError; the
elements registered before the failing one remain registered (the resulting
client is exactly the one after the successful front), and the duplicate
fails identically under single registration. -/
theorem registerSchemas_first_duplicate {c c1 : NedisClient}
    {front rest : List SchemaDefinition} {bad : SchemaDefinition}
    (hfront : registerSchemas c front = (.ok (), c1))
    (hdup : bad.name ∈ c1.registeredSchemas.map SchemaDefinition.name) :
    registerSchemas c (front ++ bad :: rest) =
      (.error (.duplicateSchemaError bad.name), c1) ∧
    registerSchema c1 bad = (.error (.duplicateSchemaError bad.name), c1) := by
  have hany : (c1.registeredSchemas.any (fun s => s.name == bad.name)) = true := by
    rw [List.any_eq_true]
    obtain ⟨s, hs, heq⟩ := List.mem_map.mp hdup
    exact ⟨s, hs, by simp [heq]⟩
  have hsingle : registerSchema c1 bad =
      (.error (.duplicateSchemaError bad.name), c1) := by
    simp [registerSchema, hany]
  refine ⟨?_, hsingle⟩
  rw [registerSchemas_append_ok (bad :: rest) hfront]
  simp only [registerSchemas, hsingle]

/-- Witness for C6: registering users then the already-present dogs schema. -/
theorem registerSchemas_first_duplicate_witness :
    registerSchemas clientC [usersSd] =
      (.ok (), { clientC with registeredSchemas := [dogsSd, usersSd] }) ∧
    dogsSd.name ∈ List.map SchemaDefinition.name
      ({ clientC with registeredSchemas := [dogsSd, usersSd] }).registeredSchemas ∧
    registerSchemas clientC ([usersSd] ++ dogsSd :: []) =
      (.error (.duplicateSchemaError dogsSd.name),
        { clientC with registeredSchemas := [dogsSd, usersSd] }) ∧
    registerSchema { clientC with registeredSchemas := [dogsSd, usersSd] } dogsSd =
      (.error (.duplicateSchemaError dogsSd.name),
        { clientC with registeredSchemas := [dogsSd, usersSd] }) :=
  ⟨rfl, by simp [dogsSd],
    registerSchemas_first_duplicate rfl (by simp [dogsSd])⟩

/-- Claim C8 counterexample: lmembers (the listMembers operation) performs no
connection check: on a never-connected client whose store refuses
connections, it reads the index and succeeds instead of aborting with
ConnectionError. -/
theorem lmembers_no_connection_check_cex :
    clientDisc.connected = false ∧
    stBad.connectOk = false ∧
    lmembers clientDisc stBad "dogs" = (.ok ["dogs:1"], clientDisc, stBad) :=
  ⟨rfl, rfl, rfl⟩

/-- Claim C8 amended: insert, get, getAll, update and delete each first
ensure the connection lazily and, when establishment fails, abort with a
ConnectionError naming the configured host and port, leaving client and
store untouched; lmembers alone performs no connection check and returns the
raw index regardless. -/
theorem crud_ops_connection_error (c : NedisClient) (st : RedisState)
    (T p : String) (r d : Record)
    (hc : c.connected = false) (hk : st.connectOk = false) :
    insert c st T r = (.error (.connectionError (connMsg c)), c, st) ∧
    get c st T p = (.error (.connectionError (connMsg c)), c, st) ∧
    getAll c st T = (.error (.connectionError (connMsg c)), c, st) ∧
    update c st T p d = (.error (.connectionError (connMsg c)), c, st) ∧
    delete c st T p = (.error (.connectionError (connMsg c)), c, st) ∧
    lmembers c st T = (.ok (lrangeAll st T), c, st) := by
  have hcc := checkConnection_fails hc hk
  refine ⟨?_, ?_, ?_, ?_, ?_, rfl⟩ <;>
    simp only [insert, get, getAll, update, delete, hcc]

/-- Witness for the C8 amended theorem at the disconnected fixture. -/
theorem crud_ops_connection_error_witness :
    clientDisc.connected = false ∧
    stBad.connectOk = false ∧
    insert clientDisc stBad "dogs" ralph =
      (.error (.connectionError (connMsg clientDisc)), clientDisc, stBad) ∧
    get clientDisc stBad "dogs" "1" =
      (.error (.connectionError (connMsg clientDisc)), clientDisc, stBad) ∧
    getAll clientDisc stBad "dogs" =
      (.error (.connectionError (connMsg clientDisc)), clientDisc, stBad) ∧
    update clientDisc stBad "dogs" "1" [("paws", "2")] =
      (.error (.connectionError (connMsg clientDisc)), clientDisc, stBad) ∧
    delete clientDisc stBad "dogs" "1" =
      (.error (.connectionError (connMsg clientDisc)), clientDisc, stBad) ∧
    lmembers clientDisc stBad "dogs" =
      (.ok (lrangeAll stBad "dogs"), clientDisc, stBad) :=
  ⟨rfl, rfl,
    crud_ops_connection_error clientDisc stBad "dogs" "1" ralph
      [("paws", "2")] rfl rfl⟩

/-- Claim C9 counterexample: with a dangling index entry dogs:1 (listed in
the index, no hash stored), getAll silently returns a sequence containing
the empty mapping for the dangling entry instead of surfacing a consistency
error. -/
theorem getAll_dangling_silent_cex :
    lrangeAll stDangle "dogs" = ["dogs:1"] ∧
    lookupA stDangle.hashes "dogs:1" = none ∧
    getAll clientC stDangle "dogs" = (.ok [[]], clientC, stDangle) :=
  ⟨rfl, rfl, rfl⟩

/-- Claim C9 amended: a dangling index entry is surfaced as
DatabaseInsertError only by an insert targeting the same key (which mutates
nothing); getAll does not report it and instead silently yields the empty
mapping for the dangling entry. -/
theorem insert_detects_dangling_index {c : NedisClient} {st : RedisState}
    {sd : SchemaDefinition} {T : String} {r : Record}
    (hconn : c.connected = true)
    (hreg : validateSchema c T = .ok sd)
    (hval : sd.schema r = none)
    (habsH : lookupA st.hashes (getKey T (fieldD r sd.pk)) = none)
    (habsL : lookupA st.lists (getKey T (fieldD r sd.pk)) = none)
    (hidx : getKey T (fieldD r sd.pk) ∈ lrangeAll st T) :
    insert c st T r =
      (.error (.databaseInsertError (getKey T (fieldD r sd.pk))
        "Key doesnt exist but key is in table set."), c, st) ∧
    hgetallS st (getKey T (fieldD r sd.pk)) = [] := by
  refine ⟨insert_dangling_fails hconn hreg hval habsH habsL hidx, ?_⟩
  simp [hgetallS, habsH]

/-- Witness for the C9 amended theorem at the dangling fixture. -/
theorem insert_detects_dangling_index_witness :
    clientC.connected = true ∧
    validateSchema clientC "dogs" = .ok dogsSd ∧
    dogsSd.schema ralph = none ∧
    lookupA stDangle.hashes (getKey "dogs" (fieldD ralph dogsSd.pk)) = none ∧
    lookupA stDangle.lists (getKey "dogs" (fieldD ralph dogsSd.pk)) = none ∧
    getKey "dogs" (fieldD ralph dogsSd.pk) ∈ lrangeAll stDangle "dogs" ∧
    insert clientC stDangle "dogs" ralph =
      (.error (.databaseInsertError (getKey "dogs" (fieldD ralph dogsSd.pk))
        "Key doesnt exist but key is in table set."), clientC, stDangle) ∧
    hgetallS stDangle (getKey "dogs" (fieldD ralph dogsSd.pk)) = [] :=
  ⟨rfl, rfl, rfl, rfl, rfl, by decide,
    insert_detects_dangling_index rfl rfl rfl rfl rfl (by decide)⟩

/-- Claim C10: the fully-qualified key construction is not injective over
table/primary-key pairs: the distinct pairs (a, b:c) and (a:b, c) map to the
same physical key, and a record inserted under table a with primary key b:c
is observable and mutable through the other pair: get on (a:b, c) returns
it, insert on (a:b, c) is blocked by it with ItemAlreadyExistsError, update
on (a:b, c) rewrites its stored hash (the change visible through the
original pair), and delete on (a:b, c) destroys it (get on the original
pair then fails with ItemNotFoundError). -/
theorem getKey_collision_observable :
    getKey "a" "b:c" = getKey "a:b" "c" ∧
    ¬((("a" : String), ("b:c" : String)) = (("a:b" : String), ("c" : String))) ∧
    insert clientAB stEmpty "a" recBC = (.ok true, clientAB, stAfter) ∧
    get clientAB stAfter "a:b" "c" = (.ok recBC, clientAB, stAfter) ∧
    insert clientAB stAfter "a:b" [("id", "c")] =
      (.error (.itemAlreadyExistsError "a:b:c"), clientAB, stAfter) ∧
    update clientAB stAfter "a:b" "c" [("name", "y")] =
      (.ok [("id", "b:c"), ("name", "y")], clientAB, stMutAB) ∧
    get clientAB stMutAB "a" "b:c" =
      (.ok [("id", "b:c"), ("name", "y")], clientAB, stMutAB) ∧
    delete clientAB stAfter "a:b" "c" = (.ok true, clientAB, stDelAB) ∧
    get clientAB stDelAB "a" "b:c" =
      (.error (.itemNotFoundError "b:c" "a"), clientAB, stDelAB) :=
  ⟨rfl, by decide, rfl, rfl, rfl, rfl, rfl, rfl, rfl⟩

end Nedis
